import Mathlib

/-!
# Verification of the Effective Python example programs

Shallow embedding, in Lean 4, of the example programs of this repository
(`example_code/item_04.py`, `item_09.py`, `item_11.py`, `item_19.py`,
`item_20.py`, `item_31.py`, `item_68.py`, `item_73.py`) together with
proofs of the behavioural properties stated in the specification.

Modelling conventions:
* Python numbers are modelled by `ℚ` (exact arithmetic) or `ℤ` where the
  examples only use integers and exactly-representable results; `a / b`
  raising `ZeroDivisionError` exactly when `b == 0` is modelled by an
  explicit zero test.  `item_31.py`'s `normalize`, whose claimed behaviour
  is sensitive to rounding, is instead modelled over IEEE-754 binary64
  floats (`F64` below, with round-to-nearest arithmetic).
* Python strings are `String`; Python's lexicographic ordering of strings
  (code-point by code-point) is modelled by the executable `strLt` below,
  because it must be computable by the kernel.
* Functions that may raise are modelled with `Option`/`Except`; `none` /
  `.error` is a raised exception.
* Mutation is made explicit: a function that mutates its argument returns
  the new value of that argument.
-/

namespace EffectivePython

/-! ## Common: Python string comparison

Python compares strings lexicographically by Unicode code point.  `Char`
in Lean is a Unicode scalar value, so comparing `String.data` pointwise by
`Char.toNat` is a faithful executable model of Python's `<` on `str`. -/

/-- One Python code-point comparison. -/
def charLt (a b : Char) : Bool := a.toNat < b.toNat

/-- Lexicographic comparison of code-point lists, as Python compares strings. -/
def charListLt : List Char → List Char → Bool
  | [], [] => false
  | [], _ :: _ => true
  | _ :: _, [] => false
  | a :: as, b :: bs =>
    if charLt a b then true
    else if charLt b a then false
    else charListLt as bs

/-- Python's `s < t` on strings. -/
def strLt (s t : String) : Bool := charListLt s.data t.data

/-! ## item_09.py: coprimality via loop-`else` vs. boolean flag

Source (`example_code/item_09.py`, Examples 6 and 7):

    def coprime(a, b):
        for i in range(2, min(a, b) + 1):
            if a % i == 0 and b % i == 0:
                return False
        return True

    def coprime_alternate(a, b):
        is_coprime = True
        for i in range(2, min(a, b) + 1):
            if a % i == 0 and b % i == 0:
                is_coprime = False
                break
        return is_coprime

(The source `coprime` uses an early `return False`; in the book's original
the `return True` sits in the loop's `else` block, which runs exactly when
the loop was not broken out of — both give the same control flow.)
Python integers are `ℤ`; `%` with a positive right operand agrees with
`Int.emod`. -/

/-- Python's `range(lo, hi)` over integers (step 1). -/
def pyRange (lo hi : Int) : List Int := (List.range (hi - lo).toNat).map (fun k => lo + k)

/-- The `for` loop body of `coprime`: early `return False` on a common factor,
`True` when the loop finishes. -/
def coprimeLoop (a b : Int) : List Int → Bool
  | [] => true
  | i :: rest => if a % i == 0 && b % i == 0 then false else coprimeLoop a b rest

/-- `coprime(a, b)` from `item_09.py` Example 6. -/
def coprime (a b : Int) : Bool := coprimeLoop a b (pyRange 2 (min a b + 1))

/-- The `for` loop of `coprime_alternate`: carries the `is_coprime` flag and
`break`s (immediately returning the just-assigned `False`) on a common factor. -/
def coprimeAltLoop (a b : Int) (is_coprime : Bool) : List Int → Bool
  | [] => is_coprime
  | i :: rest =>
    if a % i == 0 && b % i == 0 then false else coprimeAltLoop a b is_coprime rest

/-- `coprime_alternate(a, b)` from `item_09.py` Example 7. -/
def coprime_alternate (a b : Int) : Bool := coprimeAltLoop a b true (pyRange 2 (min a b + 1))

/-! ## item_20.py: `careful_divide`

Source (`example_code/item_20.py`):

    # Example 1 (sentinel version)
    def careful_divide(a, b):
        try:
            return a / b
        except ZeroDivisionError:
            return None

    # Example 9 (final, type-annotated version)
    def careful_divide(a: float, b: float) -> float:
        """Divides a by b.

        Raises:
            ValueError: When the inputs cannot be divided.
        """
        try:
            return a / b
        except ZeroDivisionError as e:
            raise ValueError('Invalid inputs')

`a / b` raises `ZeroDivisionError` exactly when `b == 0`. -/

/-- The sentinel-returning first revision of `careful_divide` (Example 1). -/
def careful_divide_sentinel (a b : ℚ) : Option ℚ :=
  if b = 0 then none else some (a / b)

/-- The final revision of `careful_divide` (Example 9): raises `ValueError`
(`.error "Invalid inputs"`) on division by zero. -/
def careful_divide (a b : ℚ) : Except String ℚ :=
  if b = 0 then .error "Invalid inputs" else .ok (a / b)

/-- Python truthiness of an optional float result: `None` and `0` are falsy.
This is the `if not result:` test of `item_20.py` Example 3. -/
def pyTruthy : Option ℚ → Bool
  | none => false
  | some x => if x = 0 then false else true

/-! ## item_19.py: `get_stats`

Source (`example_code/item_19.py`, Example 4):

    def get_stats(numbers):
        minimum = min(numbers)
        maximum = max(numbers)
        count = len(numbers)
        average = sum(numbers) / count
        sorted_numbers = sorted(numbers)
        middle = count // 2
        if count % 2 == 0:
            lower = sorted_numbers[middle - 1]
            upper = sorted_numbers[middle]
            median = (lower + upper) / 2
        else:
            median = sorted_numbers[middle]
        return minimum, maximum, average, median, count

`min`/`max` of an empty list raise `ValueError` (modelled by `none`);
`sorted` is modelled by insertion sort, which realizes Python's stable
ascending sort.  The example feeds a list of `int`s, so the inputs are `ℤ`;
`sum(numbers) / count` and `(lower + upper) / 2` are Python's true division,
producing floats, modelled exactly in `ℚ`. -/

/-- `get_stats(numbers)` returning `(minimum, maximum, average, median, count)`,
or `none` when `numbers` is empty (Python's `min([])` raises). -/
def get_stats (numbers : List ℤ) : Option (ℤ × ℤ × ℚ × ℚ × ℕ) :=
  match numbers with
  | [] => none
  | x :: xs =>
    let minimum := xs.foldl min x
    let maximum := xs.foldl max x
    let count := numbers.length
    let average : ℚ := (numbers.sum : ℚ) / count
    let sorted_numbers := numbers.insertionSort (· ≤ ·)
    let middle := count / 2
    if count % 2 = 0 then
      let lower := sorted_numbers.getD (middle - 1) 0
      let upper := sorted_numbers.getD middle 0
      let median : ℚ := ((lower : ℚ) + (upper : ℚ)) / 2
      some (minimum, maximum, average, median, count)
    else
      some (minimum, maximum, average, ((sorted_numbers.getD middle 0 : ℤ) : ℚ), count)

/-! ## item_31.py: `normalize` over a single-use iterator

Source (`example_code/item_31.py`, Examples 1, 3 and 6):

    def normalize(numbers):
        total = sum(numbers)
        result = []
        for value in numbers:
            percent = 100 * value / total
            result.append(percent)
        return result

    def read_visits(data_path):
        with open(data_path) as f:
            for line in f:
                yield int(line)

    def normalize_copy(numbers):
        numbers_copy = list(numbers)  # Copy the iterator
        total = sum(numbers_copy)
        result = []
        for value in numbers_copy:
            percent = 100 * value / total
            result.append(percent)
        return result

An iterable is modelled by its remaining item stream plus a flag telling
whether `iter()` returns the same exhaustible cursor (a generator such as
`read_visits(...)`) or a fresh pass over a container (a list).  Each full
pass over a single-use iterable leaves it empty.

The numbers are Python floats, i.e. IEEE-754 binary64 values, embedded as
dyadic rationals `m * 2 ^ e` with a 53-bit significand.  Each arithmetic
operation (`+`, `*`, `/` on floats) computes the exact result and rounds it
to 53 significant bits, to nearest with ties to even — IEEE-754
round-to-nearest semantics in the normal range, which all values here stay
inside (overflow, subnormals and signed zeros do not arise for the
nonnegative inputs the examples use). -/

/-- An IEEE-754 binary64 value `m * 2 ^ e` (nonnegative normal range). -/
structure F64 where
  m : Int
  e : Int
deriving DecidableEq, Repr

/-- Bit length of a natural number, with explicit fuel (128 exceeds every
bit length arising here; each step halves the argument). -/
def bitlenGo : Nat → Nat → Nat
  | 0, _ => 0
  | f + 1, n => if n = 0 then 0 else bitlenGo f (n / 2) + 1

/-- Bit length of a natural number. -/
def bitlen (n : Nat) : Nat := bitlenGo 128 n

/-- Round the exact value `m * 2 ^ e` to 53 significant bits, to nearest,
ties to even. -/
def roundTo53 (m : Nat) (e : Int) : F64 :=
  let b := bitlen m
  if b ≤ 53 then ⟨m, e⟩
  else
    let s := b - 53
    let cut := 2 ^ s
    let q := m / cut
    let r := m % cut
    let half := cut / 2
    let q2 := if r > half then q + 1 else if r < half then q
      else if q % 2 = 0 then q else q + 1
    ⟨q2, e + s⟩

/-- Float addition: exact sum (exponents aligned), then one rounding. -/
def fAdd (x y : F64) : F64 :=
  let e0 := min x.e y.e
  let mx := x.m * 2 ^ (x.e - e0).toNat
  let my := y.m * 2 ^ (y.e - e0).toNat
  roundTo53 (mx + my).toNat e0

/-- Float multiplication: exact product, then one rounding. -/
def fMul (x y : F64) : F64 := roundTo53 (x.m * y.m).toNat (x.e + y.e)

/-- Float division `x / y` (`y ≠ 0`): the exact quotient rounded to nearest,
ties to even.  The dividend is scaled so the integer quotient carries at
least 54 bits, and the division remainder keeps the tie comparison exact. -/
def fDiv (x y : F64) : F64 :=
  let A := x.m.toNat
  let B := y.m.toNat
  let la := bitlen A
  let lb := bitlen B
  let sh := lb + 54 - la
  let shB := la - (lb + 54)
  let C := A * 2 ^ sh
  let D := B * 2 ^ shB
  let q := C / D
  let r := C % D
  let s := bitlen q - 53
  let cut := 2 ^ s
  let qq := q / cut
  let rr := q % cut
  let num := 2 * (rr * D + r)
  let den := cut * D
  let qq2 := if num > den then qq + 1 else if num < den then qq
    else if qq % 2 = 0 then qq else qq + 1
  ⟨qq2, x.e - y.e + (shB : Int) - (sh : Int) + (s : Int)⟩

/-- `sum(...)` over a list of floats: a sequential left fold from `0`. -/
def fSumList (l : List F64) : F64 := l.foldl fAdd ⟨0, 0⟩

/-- Float equality `==`: equality of the represented values. -/
def F64.valEq (x y : F64) : Bool :=
  let e0 := min x.e y.e
  x.m * 2 ^ (x.e - e0).toNat == y.m * 2 ^ (y.e - e0).toNat

/-- A Python iterable: the remaining items, and whether it is a single-use
iterator (generator) rather than a re-iterable container. -/
structure PyIter where
  items : List F64
  singleUse : Bool
deriving Repr

/-- One full iteration pass (as done by `sum(...)` or a `for` loop): yields the
visible items and the iterable's state afterwards. -/
def iterPass (it : PyIter) : List F64 × PyIter :=
  (it.items, if it.singleUse then { it with items := [] } else it)

/-- `normalize(numbers)` from `item_31.py` Example 1, in float arithmetic
(`percent = 100 * value / total` evaluates `100 * value` first); `none`
models the `ZeroDivisionError` raised when a division by a zero total is
executed. -/
def normalize (numbers : PyIter) : Option (List F64) :=
  let pass1 := iterPass numbers
  let total := fSumList pass1.1
  let pass2 := iterPass pass1.2
  if total.m = 0 ∧ pass2.1 ≠ [] then none
  else some (pass2.1.map fun value => fDiv (fMul ⟨100, 0⟩ value) total)

/-- `normalize_copy(numbers)` from `item_31.py` Example 6: first materializes
the iterator into a list, then makes both passes over that copy. -/
def normalize_copy (numbers : PyIter) : Option (List F64) :=
  let numbers_copy := (iterPass numbers).1
  let total := fSumList numbers_copy
  if total.m = 0 ∧ numbers_copy ≠ [] then none
  else some (numbers_copy.map fun value => fDiv (fMul ⟨100, 0⟩ value) total)

/-- The generator `read_visits('my_numbers.txt')` over the file holding
`15, 35, 80` (`item_31.py` Example 3): a single-use iterator. -/
def read_visits : PyIter := ⟨[⟨15, 0⟩, ⟨35, 0⟩, ⟨80, 0⟩], true⟩

/-! ## item_04.py: the three string-formatting mechanisms

Source (`example_code/item_04.py`, Example 25):

    f_string = f'\x7bkey:<10\x7d = \x7bvalue:.2f\x7d'
    c_tuple  = '%-10s = %.2f' % (key, value)
    str_args = '\x7b:<10\x7d = \x7b:.2f\x7d'.format(key, value)
    str_kw   = '\x7bkey:<10\x7d = \x7bvalue:.2f\x7d'.format(key=key, value=value)
    c_dict   = '%(key)-10s = %(value).2f' % \x7b'key': key, 'value': value\x7d

We embed Python's formatting engine, restricted to the directives these
templates use: `%`-formatting with an optional `(name)` mapping key, the
`-` (left justify) flag, a minimum width, and a precision, for conversions
`s` and `f`; and format-spec (`str.format` / f-string) formatting with an
optional `<` alignment, width, precision and `f` presentation type.  The
float operand `1.234` is represented exactly by its decimal literal
(mantissa and decimal exponent); `%.2f`-style rounding is round to
nearest, ties to even, which agrees with Python on these values. -/

/-- An exact decimal number `mant / 10 ^ exp`, the value of a float literal. -/
structure Dec where
  mant : Int
  exp : Nat
deriving DecidableEq, Repr

/-- An operand of a format template: a string or a (decimal) float. -/
inductive FmtArg where
  | s (v : String)
  | f (v : Dec)
deriving DecidableEq, Repr

/-- Left-pad a numeral string with zeros to width `w`. -/
def padZeros (w : Nat) (s : String) : String :=
  String.mk (List.replicate (w - s.length) '0') ++ s

/-- Fixed-point rendering with `prec` fractional digits (Python's `%.Nf`),
rounding to nearest, ties to even. -/
def fixedPrec (prec : Nat) (d : Dec) : String :=
  let sign := if d.mant < 0 then "-" else ""
  let n := d.mant.natAbs
  let num := n * 10 ^ prec
  let den := 10 ^ d.exp
  let q := num / den
  let r := num % den
  let rounded :=
    if 2 * r > den then q + 1
    else if 2 * r < den then q
    else if q % 2 = 0 then q else q + 1
  let ip := rounded / 10 ^ prec
  let fp := rounded % 10 ^ prec
  if prec = 0 then sign ++ Nat.repr ip
  else sign ++ Nat.repr ip ++ "." ++ padZeros prec (Nat.repr fp)

/-- Left-justify `s` in a field of minimum width `w` (space fill). -/
def ljust (w : Nat) (s : String) : String :=
  s ++ String.mk (List.replicate (w - s.length) ' ')

/-- Right-justify `s` in a field of minimum width `w` (space fill). -/
def rjust (w : Nat) (s : String) : String :=
  String.mk (List.replicate (w - s.length) ' ') ++ s

/-- Scan decimal digits, returning the accumulated number (if any digit was
seen) and the rest of the input. -/
def parseDigits : List Char → Option Nat → Option Nat × List Char
  | [], acc => (acc, [])
  | c :: cs, acc =>
    if c.isDigit then parseDigits cs (some ((acc.getD 0) * 10 + (c.toNat - 48)))
    else (acc, c :: cs)

/-- Split the input at the first occurrence of any delimiter. -/
def takeUntil (delims : List Char) : List Char → List Char × List Char
  | [] => ([], [])
  | c :: cs =>
    if c ∈ delims then ([], c :: cs)
    else
      let p := takeUntil delims cs
      (c :: p.1, p.2)

/-- Render one `%` directive: flags/width/precision applied to an operand via
conversion `s` or `f`.  `none` on a conversion/operand type mismatch. -/
def percentConvert (minus : Bool) (width : Option Nat) (prec : Option Nat)
    (conv : Char) (arg : FmtArg) : Option String :=
  let pad := fun (s : String) =>
    match width with
    | none => s
    | some w => if minus then ljust w s else rjust w s
  match conv, arg with
  | 's', .s v => some (pad v)
  | 'f', .f v => some (pad (fixedPrec (prec.getD 6) v))
  | _, _ => none

/-- The `%`-formatting interpreter (`'...' % (...)` / `'...' % \x7b...\x7d`),
consuming positional operands from `args`, or looking `%(name)...` keys up in
`map`.  `fuel` only bounds the recursion; it is set to the template length,
which every step consumes at least one character of. -/
def percentFormatAux (map : List (String × FmtArg)) :
    Nat → List Char → List FmtArg → String → Option String
  | _, [], _, acc => some acc
  | 0, _ :: _, _, _ => none
  | fuel + 1, c :: rest, args, acc =>
    if c = '%' then
      let named :=
        match rest with
        | '(' :: r =>
          let p := takeUntil [')'] r
          match p.2 with
          | ')' :: r2 => some (some (String.mk p.1), r2)
          | _ => none
        | _ => some (none, rest)
      match named with
      | none => none
      | some (name, rest1) =>
        let fl := match rest1 with
          | '-' :: r => (true, r)
          | _ => (false, rest1)
        let wd := parseDigits fl.2 none
        let pr : Option Nat × List Char :=
          match wd.2 with
          | '.' :: r => parseDigits r none
          | _ => (none, wd.2)
        match pr.2 with
        | [] => none
        | conv :: rest5 =>
          let argAndRest : Option (FmtArg × List FmtArg) :=
            match name with
            | some nm =>
              match map.lookup nm with
              | some a => some (a, args)
              | none => none
            | none =>
              match args with
              | a :: as => some (a, as)
              | [] => none
          match argAndRest with
          | none => none
          | some (a, args2) =>
            match percentConvert fl.1 wd.1 pr.1 conv a with
            | none => none
            | some piece => percentFormatAux map fuel rest5 args2 (acc ++ piece)
    else percentFormatAux map fuel rest args (acc.push c)

/-- `tmpl % args` / `tmpl % mapping`. -/
def percentFormat (tmpl : String) (args : List FmtArg)
    (map : List (String × FmtArg)) : Option String :=
  percentFormatAux map tmpl.data.length tmpl.data args ""

/-- Apply a format spec (the part after `:` in `\x7b...\x7d`, as used by
`str.format` and f-strings): optional `<` alignment, width, precision,
optional presentation type `s`/`f`.  Strings justify left by default,
numbers right. -/
def applyFormatSpec (arg : FmtArg) (spec : List Char) : Option String :=
  let al : Option Char × List Char :=
    match spec with
    | '<' :: r => (some '<', r)
    | '>' :: r => (some '>', r)
    | _ => (none, spec)
  let wd := parseDigits al.2 none
  let pr : Option Nat × List Char :=
    match wd.2 with
    | '.' :: r => parseDigits r none
    | _ => (none, wd.2)
  let body : Option (String × Bool) :=
    match pr.2, arg with
    | [], .s v => if pr.1 = none then some (v, true) else none
    | 's' :: [], .s v => if pr.1 = none then some (v, true) else none
    | 'f' :: [], .f v => some (fixedPrec ((pr.1).getD 6) v, false)
    | _, _ => none
  match body with
  | none => none
  | some (s, leftDefault) =>
    let left : Bool :=
      match al.1 with
      | some ch => ch == '<'
      | none => leftDefault
    match wd.1 with
    | none => some s
    | some w => some (if left then ljust w s else rjust w s)

/-- The `str.format` interpreter over a template with `\x7bname:spec\x7d`
replacement fields; an empty name consumes the next positional operand.
`fuel` is the template length. -/
def braceFormatAux (map : List (String × FmtArg)) :
    Nat → List Char → List FmtArg → String → Option String
  | _, [], _, acc => some acc
  | 0, _ :: _, _, _ => none
  | fuel + 1, c :: rest, args, acc =>
    if c = '\x7b' then
      let p := takeUntil [':', '\x7d'] rest
      let specAndRest : Option (List Char × List Char) :=
        match p.2 with
        | ':' :: r =>
          let q := takeUntil ['\x7d'] r
          match q.2 with
          | '\x7d' :: r2 => some (q.1, r2)
          | _ => none
        | '\x7d' :: r2 => some ([], r2)
        | _ => none
      match specAndRest with
      | none => none
      | some (spec, rest2) =>
        let argAndRest : Option (FmtArg × List FmtArg) :=
          match p.1 with
          | [] =>
            match args with
            | a :: as => some (a, as)
            | [] => none
          | nm =>
            match map.lookup (String.mk nm) with
            | some a => some (a, args)
            | none => none
        match argAndRest with
        | none => none
        | some (a, args2) =>
          match applyFormatSpec a spec with
          | none => none
          | some piece => braceFormatAux map fuel rest2 args2 (acc ++ piece)
    else braceFormatAux map fuel rest args (acc.push c)

/-- `tmpl.format(args..., key=...)`. -/
def braceFormat (tmpl : String) (args : List FmtArg)
    (map : List (String × FmtArg)) : Option String :=
  braceFormatAux map tmpl.data.length tmpl.data args ""

/-- `c_tuple = '%-10s = %.2f' % (key, value)` (`item_04.py` Example 25). -/
def c_tuple (key : String) (value : Dec) : Option String :=
  percentFormat "%-10s = %.2f" [.s key, .f value] []

/-- `c_dict = '%(key)-10s = %(value).2f' % \x7b'key': key, 'value': value\x7d`. -/
def c_dict (key : String) (value : Dec) : Option String :=
  percentFormat "%(key)-10s = %(value).2f" [] [("key", .s key), ("value", .f value)]

/-- `str_args = '\x7b:<10\x7d = \x7b:.2f\x7d'.format(key, value)`. -/
def str_args (key : String) (value : Dec) : Option String :=
  braceFormat "\x7b:<10\x7d = \x7b:.2f\x7d" [.s key, .f value] []

/-- `str_kw = '\x7bkey:<10\x7d = \x7bvalue:.2f\x7d'.format(key=key, value=value)`. -/
def str_kw (key : String) (value : Dec) : Option String :=
  braceFormat "\x7bkey:<10\x7d = \x7bvalue:.2f\x7d" []
    [("key", .s key), ("value", .f value)]

/-- `f_string = f'\x7bkey:<10\x7d = \x7bvalue:.2f\x7d'`: an f-string is compiled
into direct applications of the same format-spec engine interleaved with the
literal text. -/
def f_string (key : String) (value : Dec) : Option String := do
  let a ← applyFormatSpec (.s key) "<10".data
  let b ← applyFormatSpec (.f value) ".2f".data
  return a ++ " = " ++ b

/-- `old_way = '%-10s = %.2f' % (key, value)` (`item_04.py` Example 9). -/
def old_way (key : String) (value : Dec) : Option String :=
  c_tuple key value

/-- `new_way = '%(key)-10s = %(value).2f' % \x7b'key': key, 'value': value\x7d`
(`item_04.py` Example 9); `reordered` swaps the dict entries. -/
def new_way (key : String) (value : Dec) : Option String :=
  c_dict key value

/-- `reordered`: the same mapping-based template with the dict written in the
other order (`item_04.py` Example 9). -/
def reordered (key : String) (value : Dec) : Option String :=
  percentFormat "%(key)-10s = %(value).2f" [] [("value", .f value), ("key", .s key)]

/-! ## item_11.py: list slicing

Source (`example_code/item_11.py`): `a = ['a', 'b', 'c', 'd', 'e', 'f', 'g',
'h']`, the slice identities of Examples 2, 3 and 6, the `IndexError` of
Example 7 (`a[20]`), the slice-copy of Example 8 (`b = a[3:]; b[1] = 99`),
and the copy-vs-alias contrast of Examples 11 and 12 (`b = a[:]` copies,
`b = a` aliases, `a[:] = [...]` mutates in place).

Python slice semantics for step 1: negative bounds count from the end, and
both bounds are silently clipped to `[0, len]` — a slice never raises.  A
single index raises `IndexError` when (after negative adjustment) it is out
of range, modelled by `none`.  Object identity is modelled by a store of
list objects addressed by `Nat`; variables hold addresses. -/

/-- An element of one of the example lists: the letters, or an int such as
`99` assigned into a slot. -/
inductive PyVal where
  | str (v : String)
  | int (v : Int)
deriving DecidableEq, Repr

/-- Clip a slice bound to `[0, len]`, counting negative bounds from the end. -/
def sliceIndex (len : Nat) (i : Int) : Nat :=
  if i < 0 then (max ((len : Int) + i) 0).toNat else min i.toNat len

/-- `l[start:stop]` (step 1); `none` bounds are the omitted defaults `0` /
`len(l)`.  Total: out-of-range bounds are clipped, never an error. -/
def pyslice (l : List PyVal) (start stop : Option Int) : List PyVal :=
  let s := sliceIndex l.length (start.getD 0)
  let t := sliceIndex l.length (stop.getD (l.length : Int))
  (l.drop s).take (t - s)

/-- `l[i]` for a single index: `none` is an `IndexError`. -/
def pyindex (l : List PyVal) (i : Int) : Option PyVal :=
  let j := if i < 0 then (l.length : Int) + i else i
  if j < 0 then none else l.get? j.toNat

/-- `l[i] = v` for a single index: `none` is an `IndexError`. -/
def pysetindex (l : List PyVal) (i : Int) (v : PyVal) : Option (List PyVal) :=
  let j := if i < 0 then (l.length : Int) + i else i
  if j < 0 ∨ (l.length : Int) ≤ j then none else some (l.set j.toNat v)

/-- `l[start:stop] = xs`: replaces the selected segment (which may grow or
shrink the list). -/
def pysliceassign (l : List PyVal) (start stop : Option Int) (xs : List PyVal) :
    List PyVal :=
  let s := sliceIndex l.length (start.getD 0)
  let t := max s (sliceIndex l.length (stop.getD (l.length : Int)))
  l.take s ++ xs ++ l.drop t

/-- The example list `a = ['a', 'b', 'c', 'd', 'e', 'f', 'g', 'h']`. -/
def listA : List PyVal :=
  [.str "a", .str "b", .str "c", .str "d", .str "e", .str "f", .str "g", .str "h"]

/-- Read the list object at address `a` of the store. -/
def storeRead (st : List (List PyVal)) (a : Nat) : List PyVal := st.getD a []

/-- Overwrite the list object at address `a` of the store. -/
def storeWrite (st : List (List PyVal)) (a : Nat) (v : List PyVal) :
    List (List PyVal) := st.set a v

/-- `item_11.py` Example 8 as a store program: `a` is object `0`; `b = a[3:]`
allocates object `1` holding a copy of the slice; `b[1] = 99` mutates
object `1` only. -/
def slicesCopyProgram : List (List PyVal) :=
  let st0 := [listA]
  let st1 := st0 ++ [pyslice (storeRead st0 0) (some 3) none]
  match pysetindex (storeRead st1 1) 1 (.int 99) with
  | some newb => storeWrite st1 1 newb
  | none => st1

/-- `item_11.py` Example 12: after `b = a`, both names hold the same address. -/
def aliasEnvA : Nat := 0

/-- The address `b` holds after `b = a`: the address of `a` itself. -/
def aliasEnvB : Nat := aliasEnvA

/-! ## item_68.py: versioned `copyreg` pickling of `GameState`

Source (`example_code/item_68.py`, Examples 16, 18, 19, 21, 22):

    class GameState:
        def __init__(self, level=0, points=0, magic=5):
            self.level = level
            self.points = points
            self.magic = magic

    def pickle_game_state(game_state):
        kwargs = game_state.__dict__
        kwargs['version'] = 2
        return unpickle_game_state, (kwargs,)

    def unpickle_game_state(kwargs):
        version = kwargs.pop('version', 1)
        if version == 1:
            del kwargs['lives']
        return GameState(**kwargs)

An object's `__dict__` is an insertion-ordered dict from attribute names to
(integer) values.  `kwargs = game_state.__dict__` is an alias, so
`kwargs['version'] = 2` also mutates the live object: `pickle_game_state`
therefore returns the pair (payload handed to `unpickle_game_state`,
attribute dict of the argument after the call) — and the two are equal. -/

/-- An attribute dict: insertion-ordered association list. -/
abbrev GSDict := List (String × Int)

/-- `d[k] = v`: replace the value in place when the key exists, else append. -/
def dictSet (d : GSDict) (k : String) (v : Int) : GSDict :=
  match d with
  | [] => [(k, v)]
  | (a, b) :: tl => if a = k then (k, v) :: tl else (a, b) :: dictSet tl k v

/-- `del d[k]` / the removal part of `d.pop(k, ...)`. -/
def dictRemove (d : GSDict) (k : String) : GSDict :=
  d.filter (fun kv => !(kv.1 == k))

/-- The final `GameState` class (`item_68.py` Example 16): fields `level`,
`points`, `magic` with defaults `0`, `0`, `5`. -/
structure GameState where
  level : Int
  points : Int
  magic : Int
deriving DecidableEq, Repr

/-- `game_state.__dict__` of a constructed `GameState` (assignment order of
`__init__`). -/
def stateDict (s : GameState) : GSDict :=
  [("level", s.level), ("points", s.points), ("magic", s.magic)]

/-- `GameState(**kwargs)`: keyword binding with the class defaults; an
unexpected keyword raises `TypeError` (`none`). -/
def gameStateNew (kw : GSDict) : Option GameState :=
  if kw.all (fun kv => kv.1 == "level" || kv.1 == "points" || kv.1 == "magic") then
    some
      { level := (kw.lookup "level").getD 0
        points := (kw.lookup "points").getD 0
        magic := (kw.lookup "magic").getD 5 }
  else none

/-- `pickle_game_state` (version 2, `item_68.py` Example 18) applied to an
object with attribute dict `game_state_dict`.  First component: the `kwargs`
payload placed in the pickle stream; second component: the object's attribute
dict after the call.  They are the same dict (`kwargs` aliases `__dict__`). -/
def pickle_game_state (game_state_dict : GSDict) : GSDict × GSDict :=
  let kwargs := dictSet game_state_dict "version" 2
  (kwargs, kwargs)

/-- `unpickle_game_state` (`item_68.py` Example 19): pop the version
(default `1`); version-1 data must carry the obsolete `lives` key, which is
deleted (`del` of a missing key raises `KeyError`, `none`); then construct a
`GameState`. -/
def unpickle_game_state (kwargs : GSDict) : Option GameState :=
  let version := (kwargs.lookup "version").getD 1
  let kwargs1 := dictRemove kwargs "version"
  if version = 1 then
    if (kwargs1.lookup "lives").isSome then gameStateNew (dictRemove kwargs1 "lives")
    else none
  else gameStateNew kwargs1

/-- Modelled from the spec: `pickle.loads` on a stream pickled through the
default (non-`copyreg`) path stores the class name and, on load, looks that
name up among the classes that still exist; a missing class (deleted or
renamed, `item_68.py` Examples 21-22) makes `loads` raise instead of
returning data under a wrong type.  The byte-stream decoding machinery of the
`pickle` module itself is not part of this repository, so only its documented
name-lookup behaviour is modelled. -/
def loadsByClassName (classes : List String) (name : String) (attrs : GSDict) :
    Option GSDict :=
  if name ∈ classes then some attrs else none

/-! ## item_73.py: the heap-based overdue-book queue

Source (`example_code/item_73.py`, Examples 11, 21, 22) uses
`heapq.heappush` / `heapq.heappop` from the standard library, so CPython's
`heapq` is embedded verbatim:

    def _siftdown(heap, startpos, pos):
        newitem = heap[pos]
        while pos > startpos:
            parentpos = (pos - 1) >> 1
            parent = heap[parentpos]
            if newitem < parent:
                heap[pos] = parent
                pos = parentpos
                continue
            break
        heap[pos] = newitem

    def _siftup(heap, pos):
        endpos = len(heap)
        startpos = pos
        newitem = heap[pos]
        childpos = 2*pos + 1
        while childpos < endpos:
            rightpos = childpos + 1
            if rightpos < endpos and not heap[childpos] < heap[rightpos]:
                childpos = rightpos
            heap[pos] = heap[childpos]
            pos = childpos
            childpos = 2*pos + 1
        heap[pos] = newitem
        _siftdown(heap, startpos, pos)

    def heappush(heap, item):
        heap.append(item)
        _siftdown(heap, 0, len(heap)-1)

    def heappop(heap):
        lastelt = heap.pop()
        if heap:
            returnitem = heap[0]
            heap[0] = lastelt
            _siftup(heap, 0)
            return returnitem
        return lastelt

The loops are embedded with an explicit fuel argument that strictly
decreases each iteration; `_siftdown`'s position strictly decreases, so
`fuel = pos` suffices, and `_siftup`'s position strictly increases below
`len(heap)`, so `fuel = len(heap)` suffices.  The fuel-exhausted branches
perform the loop-exit action and are unreachable with those fuels.
`newitem` is passed explicitly (it is read from `heap[pos]` on entry);
the hole at `pos` keeps its stale value, exactly as in the array code,
and is filled on exit. -/

/-- The `while` loop of `_siftdown` (bubble the hole at `pos` up towards
`startpos` while `newitem` is less than the parent), followed by the final
`heap[pos] = newitem` write. -/
def siftdownGo {α : Type} (lt : α → α → Bool) (newitem : α) :
    Nat → List α → Nat → Nat → List α
  | 0, heap, _, pos => heap.set pos newitem
  | fuel + 1, heap, startpos, pos =>
    if startpos < pos then
      let parentpos := (pos - 1) / 2
      let parent := heap.getD parentpos newitem
      if lt newitem parent then
        siftdownGo lt newitem fuel (heap.set pos parent) startpos parentpos
      else heap.set pos newitem
    else heap.set pos newitem

/-- `_siftdown(heap, startpos, pos)`: reads `newitem = heap[pos]`, then runs
the loop.  Out-of-range `pos` would be an `IndexError`; callers stay in
range. -/
def siftdown {α : Type} (lt : α → α → Bool) (heap : List α) (startpos pos : Nat) :
    List α :=
  match heap.get? pos with
  | none => heap
  | some newitem => siftdownGo lt newitem pos heap startpos pos

/-- The `while` loop of `_siftup`: promote the smaller child into the hole at
`pos` until the hole reaches a leaf.  Returns the array and the final hole
position. -/
def siftupGo {α : Type} (lt : α → α → Bool) (newitem : α) :
    Nat → List α → Nat → List α × Nat
  | 0, heap, pos => (heap, pos)
  | fuel + 1, heap, pos =>
    let endpos := heap.length
    let childpos := 2 * pos + 1
    if childpos < endpos then
      let rightpos := childpos + 1
      let childpos2 :=
        if rightpos < endpos then
          if lt (heap.getD childpos newitem) (heap.getD rightpos newitem) then childpos
          else rightpos
        else childpos
      siftupGo lt newitem fuel (heap.set pos (heap.getD childpos2 newitem)) childpos2
    else (heap, pos)

/-- `_siftup(heap, pos)`: descend to a leaf, write `newitem` there, then
`_siftdown(heap, startpos := pos, finalpos)`. -/
def siftup {α : Type} (lt : α → α → Bool) (heap : List α) (pos : Nat) : List α :=
  match heap.get? pos with
  | none => heap
  | some newitem =>
    let p := siftupGo lt newitem heap.length heap pos
    siftdownGo lt newitem p.2 (p.1.set p.2 newitem) pos p.2

/-- `heapq.heappush(heap, item)`. -/
def heappush {α : Type} (lt : α → α → Bool) (heap : List α) (item : α) : List α :=
  siftdown lt (heap ++ [item]) 0 heap.length

/-- `heapq.heappop(heap)`: `none` is the `IndexError` on an empty heap;
otherwise returns the popped item and the remaining heap. -/
def heappop {α : Type} (lt : α → α → Bool) (heap : List α) : Option (α × List α) :=
  match heap with
  | [] => none
  | x :: xs =>
    let lastelt := (x :: xs).getLast (by simp)
    match (x :: xs).dropLast with
    | [] => some (lastelt, [])
    | r :: t => some (r, siftup lt (lastelt :: t) 0)

/-- The binary-heap invariant maintained by `heapq`: no element is less than
its parent (`heap[c] < heap[(c-1)//2]` is false for every in-range `c ≥ 1`). -/
def IsHeap {α : Type} [Inhabited α] (lt : α → α → Bool) (l : List α) : Prop :=
  ∀ c, c < l.length → 0 < c → lt (l.getD c default) (l.getD ((c - 1) / 2) default) = false

instance {α : Type} [Inhabited α] (lt : α → α → Bool) (l : List α) :
    Decidable (IsHeap lt l) := by
  unfold IsHeap
  infer_instance

/-- The comparison `lt` is (the strict form of) a linear order: irreflexive,
transitive, with transitive complement.  `strLt` (Python string comparison)
satisfies this. -/
structure LtLinear {α : Type} (lt : α → α → Bool) : Prop where
  irrefl : ∀ a, lt a a = false
  lt_trans : ∀ a b c, lt a b = true → lt b c = true → lt a c = true
  le_trans : ∀ a b c, lt b a = false → lt c b = false → lt c a = false

/-- `Book` (`item_73.py` Example 21): title, due date, and the lazily-updated
`returned` flag.  `@functools.total_ordering` with `__lt__` comparing
`due_date` makes books compare by due date. -/
structure Book where
  title : String
  due_date : String
  returned : Bool
deriving DecidableEq, Inhabited, Repr

/-- `Book.__lt__`: comparison by due date (Python string comparison). -/
def bookLt (b1 b2 : Book) : Bool := strLt b1.due_date b2.due_date

/-- `add_book(queue, book)` (`item_73.py` Example 11): `heappush`. -/
def add_book (queue : List Book) (book : Book) : List Book :=
  heappush bookLt queue book

/-- The recursion of `next_overdue_book` (`item_73.py` Example 22): the
`while queue:` loop pops returned books off the front, pops and returns the
front book when it is overdue, and otherwise raises `NoOverdueBooks`
(modelled as `none`); the returned list is the queue after the call.  Each
iteration that continues pops one element, so `fuel = len(queue)` suffices. -/
def next_overdue_bookGo : Nat → List Book → String → Option Book × List Book
  | 0, queue, _ => (none, queue)
  | fuel + 1, queue, now =>
    match queue with
    | [] => (none, queue)
    | book :: _ =>
      if book.returned then
        match heappop bookLt queue with
        | some pr => next_overdue_bookGo fuel pr.2 now
        | none => (none, queue)
      else if strLt book.due_date now then
        match heappop bookLt queue with
        | some pr => (some book, pr.2)
        | none => (some book, [])
      else (none, queue)

/-- `next_overdue_book(queue, now)`: result (`none` = raise `NoOverdueBooks`)
and the queue as left by the call. -/
def next_overdue_book (queue : List Book) (now : String) : Option Book × List Book :=
  next_overdue_bookGo queue.length queue now

/-- `Book('Pride and Prejudice', '2019-06-01')` (`item_73.py` Example 22). -/
def bookPP : Book := ⟨"Pride and Prejudice", "2019-06-01", false⟩

/-- `Book('The Time Machine', '2019-05-30')`, marked returned after being
added; the flag does not enter the heap ordering, so pushing the final value
gives the same queue. -/
def bookTM : Book := ⟨"The Time Machine", "2019-05-30", true⟩

/-- `Book('Crime and Punishment', '2019-06-06')`, marked returned after being
added. -/
def bookCP : Book := ⟨"Crime and Punishment", "2019-06-06", true⟩

/-- `Book('Wuthering Heights', '2019-06-12')`. -/
def bookWH : Book := ⟨"Wuthering Heights", "2019-06-12", false⟩

/-- The worked example's queue: the four books added by `add_book` in source
order. -/
def overdueQueue : List Book :=
  add_book (add_book (add_book (add_book [] bookPP) bookTM) bookCP) bookWH

end EffectivePython

namespace EffectivePython

/-! # Theorems -/

/-- Loops agree pointwise: the flag-carrying loop with flag `true` equals the
early-return loop. -/
theorem coprimeAltLoop_eq_coprimeLoop (a b : Int) (l : List Int) :
    coprimeAltLoop a b true l = coprimeLoop a b l := by
  induction l with
  | nil => rfl
  | cons i rest ih =>
    by_cases h : (a % i == 0 && b % i == 0) = true
    · simp [coprimeAltLoop, coprimeLoop, h]
    · simp [coprimeAltLoop, coprimeLoop, h, ih]

/-- C5: the loop-`else` coprimality check and the boolean-flag formulation agree
on every pair of integers, and both return `true` on `(4, 9)` and `false` on
`(3, 6)`. -/
theorem coprime_eq_coprime_alternate :
    (∀ a b : Int, coprime a b = coprime_alternate a b) ∧
    coprime 4 9 = true ∧ coprime 3 6 = false ∧
    coprime_alternate 4 9 = true ∧ coprime_alternate 3 6 = false := by
  refine ⟨fun a b => ?_, by decide, by decide, by decide, by decide⟩
  rw [coprime, coprime_alternate, coprimeAltLoop_eq_coprimeLoop]

/-- C3: the final `careful_divide` raises `ValueError` iff `b = 0` and returns
`a / b` (raising nothing) for every `b ≠ 0`; the sentinel revision returns
`None` exactly on `b = 0`, and its `some 0` result on `a = 0, b ≠ 0` is
indistinguishable from `None` under Python truthiness. -/
theorem careful_divide_spec :
    (∀ a b : ℚ, (∃ e, careful_divide a b = .error e) ↔ b = 0) ∧
    (∀ a b : ℚ, b ≠ 0 → careful_divide a b = .ok (a / b)) ∧
    (∀ a b : ℚ, careful_divide_sentinel a b = none ↔ b = 0) ∧
    (∀ b : ℚ, b ≠ 0 →
      careful_divide_sentinel 0 b = some 0 ∧
      pyTruthy (careful_divide_sentinel 0 b) = pyTruthy none) := by
  refine ⟨fun a b => ?_, fun a b hb => ?_, fun a b => ?_, fun b hb => ?_⟩
  · constructor
    · rintro ⟨e, he⟩
      by_contra hb
      simp [careful_divide, hb] at he
    · intro hb
      exact ⟨"Invalid inputs", by simp [careful_divide, hb]⟩
  · simp [careful_divide, hb]
  · constructor
    · intro h
      by_contra hb
      simp [careful_divide_sentinel, hb] at h
    · intro hb
      simp [careful_divide_sentinel, hb]
  · refine ⟨by simp [careful_divide_sentinel, hb], ?_⟩
    simp [careful_divide_sentinel, hb, pyTruthy]

/-- Witness for C3 at `a = 1, b = 5` and `a = 1, b = 0` and the truthiness
confusion at `a = 0, b = 5`. -/
theorem careful_divide_spec_witness :
    careful_divide 1 5 = .ok (1 / 5) ∧
    (∃ e, careful_divide 1 0 = .error e) ∧
    pyTruthy (careful_divide_sentinel 0 5) = pyTruthy none :=
  ⟨careful_divide_spec.2.1 1 5 (by norm_num),
   (careful_divide_spec.1 1 0).mpr rfl,
   (careful_divide_spec.2.2.2 5 (by norm_num)).2⟩

/-- C6: `get_stats` on the worked example list returns exactly
`(60, 73, 67.5, 68.5, 10)` (even count: median is the mean of the two middle
elements of the sorted list), and for `[1, 2, 3]` the median is `2` and the
count is `3`. -/
theorem get_stats_values :
    get_stats [63, 73, 72, 60, 67, 66, 71, 61, 72, 70] =
      some (60, 73, 67.5, 68.5, 10) ∧
    (∃ mn mx avg, get_stats [1, 2, 3] = some (mn, mx, avg, 2, 3)) := by
  constructor
  · norm_num [get_stats, List.insertionSort, List.orderedInsert]
  · refine ⟨1, 3, 2, ?_⟩
    norm_num [get_stats, List.insertionSort, List.orderedInsert]

set_option maxRecDepth 8000 in
/-- C8 counterexample: under the program's IEEE-754 double arithmetic, the
percentages returned for the re-iterable list of seven ones do not sum to
exactly `100.0` — `normalize` runs without error, but the float sum is
`7036874417766401 * 2 ^ (-46)`, i.e. `100 + 2 ^ (-46)` (printed
`100.00000000000001`), so the claim's universal exact-sum clause is false. -/
theorem normalize_sum_not_exact :
    (normalize ⟨List.replicate 7 ⟨1, 0⟩, false⟩).map
        (fun ps => F64.valEq (fSumList ps) ⟨100, 0⟩) = some false ∧
    (normalize ⟨List.replicate 7 ⟨1, 0⟩, false⟩).map
        (fun ps => fSumList ps) = some ⟨7036874417766401, -46⟩ := by
  constructor
  · decide
  · decide

set_option maxRecDepth 8000 in
/-- C8 (amended): `normalize` on a single-use iterator silently returns an
empty result (the first pass by `sum` exhausts it); and on the worked data
`15, 35, 80` — for `normalize` on the re-iterable list and for
`normalize_copy` on the single-use `read_visits` iterator — the returned
percentages sum to exactly `100.0` in the program's float arithmetic (the
source's `assert sum(percentages) == 100.0`).  In general the float sum need
not be exactly `100.0`; see the counterexample. -/
theorem normalize_float_spec :
    (∀ items : List F64, normalize ⟨items, true⟩ = some []) ∧
    (normalize ⟨[⟨15, 0⟩, ⟨35, 0⟩, ⟨80, 0⟩], false⟩).map
        (fun ps => F64.valEq (fSumList ps) ⟨100, 0⟩) = some true ∧
    (normalize_copy read_visits).map
        (fun ps => F64.valEq (fSumList ps) ⟨100, 0⟩) = some true := by
  refine ⟨fun items => ?_, by decide, by decide⟩
  simp [normalize, iterPass]

/-- C7: for the literal pair `('my_var', 1.234)`, the percent-tuple form, the
percent-dict form, both `str.format` forms and the f-string form all produce
exactly the string `'my_var     = 1.23'` (so all five agree). -/
theorem formatting_mechanisms_agree :
    c_tuple "my_var" ⟨1234, 3⟩ = some "my_var     = 1.23" ∧
    c_dict "my_var" ⟨1234, 3⟩ = some "my_var     = 1.23" ∧
    str_args "my_var" ⟨1234, 3⟩ = some "my_var     = 1.23" ∧
    str_kw "my_var" ⟨1234, 3⟩ = some "my_var     = 1.23" ∧
    f_string "my_var" ⟨1234, 3⟩ = some "my_var     = 1.23" ∧
    old_way "my_var" ⟨1234, 3⟩ = new_way "my_var" ⟨1234, 3⟩ ∧
    new_way "my_var" ⟨1234, 3⟩ = reordered "my_var" ⟨1234, 3⟩ := by
  refine ⟨?_, ?_, ?_, ?_, ?_, ?_, ?_⟩ <;> decide

/-- C4: slicing invariants on `a = ['a', ..., 'h']`: default bounds equal the
explicit ones; an over-long slice bound is clipped without error while the
single index `a[20]` raises `IndexError`; mutating `b = a[3:]` through `b`
leaves the object `a` unchanged (slices copy); and after `b = a`, a full
slice assignment through `a` is observed through `b`, which holds the very
same address. -/
theorem slicing_invariants :
    pyslice listA none (some 5) = pyslice listA (some 0) (some 5) ∧
    pyslice listA (some 5) none = pyslice listA (some 5) (some (listA.length : Int)) ∧
    pyslice listA none (some 20) = pyslice listA none none ∧
    pyindex listA 20 = none ∧
    (storeRead slicesCopyProgram 0 = listA ∧
      storeRead slicesCopyProgram 1 =
        [.str "d", .int 99, .str "f", .str "g", .str "h"]) ∧
    (aliasEnvB = aliasEnvA ∧
      ∀ (l xs : List PyVal),
        storeRead (storeWrite [l] aliasEnvA (pysliceassign l none none xs)) aliasEnvB
          = xs) := by
  refine ⟨by decide, by decide, by decide, by decide, ⟨by decide, by decide⟩, rfl, ?_⟩
  intro l xs
  have hnn : ¬((l.length : Int) < 0) := Int.not_lt.mpr (Int.natCast_nonneg _)
  simp [storeRead, storeWrite, aliasEnvB, aliasEnvA, pysliceassign, sliceIndex, hnn,
    List.drop_length]

/-- C2: a `GameState` serialized by the version-2 `pickle_game_state` hook and
deserialized by `unpickle_game_state` reconstructs an equal object; version-1
data (no `'version'` key, an obsolete `'lives'` field) reconstructs the object
with `lives` dropped and the new `magic` field defaulted; and loading data for
a class with no surviving definition errors out instead of producing a wrong
object. -/
theorem pickle_roundtrip :
    (∀ s : GameState, unpickle_game_state (pickle_game_state (stateDict s)).1 = some s) ∧
    (∀ level lives points : Int,
      unpickle_game_state [("level", level), ("lives", lives), ("points", points)] =
        some ⟨level, points, 5⟩) ∧
    (∀ attrs : GSDict, loadsByClassName ["BetterGameState"] "GameState" attrs = none) := by
  refine ⟨fun s => ?_, fun level lives points => ?_, fun attrs => ?_⟩
  · cases s
    rfl
  · rfl
  · rfl

/-- C9: pickling mutates its argument: for every attribute dict, the object's
dict after `pickle_game_state` maps `'version'` to `2`, the payload written to
the stream is that same dict, and whenever the object did not already carry
`'version' = 2` the object observably changed. -/
theorem pickle_game_state_mutates :
    (∀ d : GSDict, ((pickle_game_state d).2.lookup "version") = some 2) ∧
    (∀ d : GSDict, (pickle_game_state d).1 = (pickle_game_state d).2) ∧
    (∀ d : GSDict, d.lookup "version" ≠ some 2 → (pickle_game_state d).2 ≠ d) := by
  have hlook : ∀ (d : GSDict) (v : Int), (dictSet d "version" v).lookup "version" = some v := by
    intro d v
    induction d with
    | nil => rfl
    | cons kv tl ih =>
      obtain ⟨a, b⟩ := kv
      by_cases h : a = "version"
      · subst h
        simp [dictSet, List.lookup]
      · have hne : ("version" == a) = false := beq_eq_false_iff_ne.mpr (fun hh => h hh.symm)
        simp [dictSet, h, List.lookup, hne, ih]
  refine ⟨fun d => hlook d 2, fun d => rfl, fun d hne heq => ?_⟩
  exact hne (heq ▸ hlook d 2)

/-- Witness for C9 at the freshly constructed `GameState()` (attribute dict
`level=0, points=0, magic=5`, no `'version'` key): pickling adds
`'version' = 2` and the object is no longer equal to its pre-pickling self. -/
theorem pickle_game_state_mutates_witness :
    ((pickle_game_state (stateDict ⟨0, 0, 5⟩)).2.lookup "version") = some 2 ∧
    (pickle_game_state (stateDict ⟨0, 0, 5⟩)).2 ≠ stateDict ⟨0, 0, 5⟩ :=
  ⟨pickle_game_state_mutates.1 (stateDict ⟨0, 0, 5⟩),
   pickle_game_state_mutates.2.2 (stateDict ⟨0, 0, 5⟩) (by decide)⟩

/-! ### List index/permutation helpers for the heap development -/

theorem getD_set_self {α : Type} (l : List α) (i : Nat) (x d : α) (h : i < l.length) :
    (l.set i x).getD i d = x := by
  simp [List.getD_eq_getElem?_getD, List.getElem?_set_self, h]

theorem getD_set_ne {α : Type} (l : List α) (i j : Nat) (x d : α) (h : i ≠ j) :
    (l.set i x).getD j d = l.getD j d := by
  simp [List.getD_eq_getElem?_getD, List.getElem?_set_ne h]

theorem getD_irrel {α : Type} (l : List α) (i : Nat) (d1 d2 : α) (h : i < l.length) :
    l.getD i d1 = l.getD i d2 := by
  rw [List.getD_eq_getElem l d1 h, List.getD_eq_getElem l d2 h]

theorem siftdownGo_length {α : Type} (lt : α → α → Bool) (x : α) :
    ∀ (fuel : Nat) (h : List α) (s p : Nat),
      (siftdownGo lt x fuel h s p).length = h.length := by
  intro fuel
  induction fuel with
  | zero => intro h s p; simp [siftdownGo]
  | succ fuel ih =>
    intro h s p
    simp only [siftdownGo]
    split
    · split
      · rw [ih]
        simp
      · simp
    · simp

theorem siftupGo_length {α : Type} (lt : α → α → Bool) (x : α) :
    ∀ (fuel : Nat) (h : List α) (p : Nat),
      (siftupGo lt x fuel h p).1.length = h.length := by
  intro fuel
  induction fuel with
  | zero => intro h p; simp [siftupGo]
  | succ fuel ih =>
    intro h p
    simp only [siftupGo]
    split
    · rw [ih]
      simp
    · simp

theorem count_set {α : Type} [DecidableEq α] :
    ∀ (l : List α) (n : Nat), n < l.length → ∀ (a d y : α),
      (l.set n a).count y + (if l.getD n d = y then 1 else 0) =
        l.count y + (if a = y then 1 else 0) := by
  intro l
  induction l with
  | nil => intro n hn; simp at hn
  | cons b tl ih =>
    intro n hn a d y
    cases n with
    | zero =>
      simp only [List.set_cons_zero, List.getD_cons_zero, List.count_cons]
      by_cases hb : b = y <;> by_cases ha : a = y <;>
        simp [hb, ha, beq_iff_eq] <;> omega
    | succ n =>
      simp only [List.set_cons_succ, List.getD_cons_succ, List.count_cons]
      have hrec := ih n (by simpa using hn) a d y
      rw [List.getD_eq_getElem?_getD] at hrec
      by_cases hb : b = y <;> simp [hb, beq_iff_eq] <;> omega

theorem perm_set_set {α : Type} [DecidableEq α] (l : List α) (p q : Nat) (x d : α)
    (hp : p < l.length) (hq : q < l.length) (hne : p ≠ q) :
    ((l.set p (l.getD q d)).set q x).Perm (l.set p x) := by
  rw [List.perm_iff_count]
  intro y
  have h1 := count_set l p hp (l.getD q d) d y
  have h2 := count_set (l.set p (l.getD q d)) q
    (by simpa using hq) x d y
  have h3 := count_set l p hp x d y
  have h4 : (l.set p (l.getD q d)).getD q d = l.getD q d :=
    getD_set_ne l p q _ d hne
  rw [h4] at h2
  omega

theorem siftdownGo_perm {α : Type} [DecidableEq α] (lt : α → α → Bool) (x : α) :
    ∀ (fuel : Nat) (h : List α) (s p : Nat), p < h.length →
      (siftdownGo lt x fuel h s p).Perm (h.set p x) := by
  intro fuel
  induction fuel with
  | zero => intro h s p _; simp [siftdownGo]
  | succ fuel ih =>
    intro h s p hp
    simp only [siftdownGo]
    split
    · split
      · rename_i hsp hcmp
        refine (ih (h.set p (h.getD ((p - 1) / 2) x)) s ((p - 1) / 2)
          (by simp; omega)).trans ?_
        exact perm_set_set h p ((p - 1) / 2) x x hp (by omega) (by omega)
      · exact List.Perm.refl _
    · exact List.Perm.refl _

theorem siftupGo_perm {α : Type} [DecidableEq α] (lt : α → α → Bool) (x : α) :
    ∀ (fuel : Nat) (h : List α) (p : Nat), p < h.length →
      ∀ r1 r2, siftupGo lt x fuel h p = (r1, r2) →
        r2 < h.length ∧ r1.length = h.length ∧ (r1.set r2 x).Perm (h.set p x) := by
  intro fuel
  induction fuel with
  | zero =>
    intro h p hp r1 r2 hr
    simp only [siftupGo] at hr
    injection hr with h1 h2
    subst h1
    subst h2
    exact ⟨hp, rfl, List.Perm.refl _⟩
  | succ fuel ih =>
    intro h p hp r1 r2 hr
    by_cases hc : 2 * p + 1 < h.length
    · simp only [siftupGo, if_pos hc] at hr
      set cp2 :=
        if 2 * p + 1 + 1 < h.length then
          if lt (h.getD (2 * p + 1) x) (h.getD (2 * p + 1 + 1) x) then 2 * p + 1
          else 2 * p + 1 + 1
        else 2 * p + 1 with hcp2
      have hcp2lt : cp2 < h.length := by
        rw [hcp2]
        split
        · split <;> omega
        · omega
      have hppos : p < cp2 := by
        rw [hcp2]
        split
        · split <;> omega
        · omega
      have hlen2 : cp2 < (h.set p (h.getD cp2 x)).length := by simpa using hcp2lt
      obtain ⟨ha, hb, hcperm⟩ := ih (h.set p (h.getD cp2 x)) cp2 hlen2 r1 r2 hr
      refine ⟨by simpa using ha, by simpa using hb, hcperm.trans ?_⟩
      exact perm_set_set h p cp2 x x hp hcp2lt (by omega)
    · simp only [siftupGo, if_neg hc] at hr
      injection hr with h1 h2
      subst h1
      subst h2
      exact ⟨hp, rfl, List.Perm.refl _⟩

theorem set_getD_self {α : Type} (l : List α) (i : Nat) (d : α) (h : i < l.length) :
    l.set i (l.getD i d) = l := by
  apply List.ext_getElem?
  intro n
  by_cases hn : i = n
  · subst hn
    rw [List.getElem?_set_self (by exact h), List.getD_eq_getElem l d h,
      List.getElem?_eq_getElem h]
  · exact List.getElem?_set_ne hn

theorem siftup_length {α : Type} (lt : α → α → Bool) (h : List α) (p : Nat) :
    (siftup lt h p).length = h.length := by
  unfold siftup
  match hg : h.get? p with
  | none => rfl
  | some newitem =>
    simp only
    rw [siftdownGo_length, List.length_set, siftupGo_length]

theorem siftup_perm {α : Type} [DecidableEq α] (lt : α → α → Bool) (h : List α)
    (p : Nat) (hp : p < h.length) : (siftup lt h p).Perm h := by
  have hg : h.get? p = some h[p] := List.get?_eq_get hp
  unfold siftup
  rw [hg]
  simp only
  rcases hsg : siftupGo lt h[p] h.length h p with ⟨r1, r2⟩
  obtain ⟨hr2, hr1len, hperm⟩ := siftupGo_perm lt h[p] h.length h p hp r1 r2 hsg
  dsimp only
  refine (siftdownGo_perm lt h[p] r2 (r1.set r2 h[p]) p r2 (by simp; omega)).trans ?_
  rw [List.set_set]
  refine hperm.trans ?_
  rw [show h[p] = h.getD p h[p] from (List.getD_eq_getElem h _ hp).symm, set_getD_self]
  exact hp

theorem heappush_perm {α : Type} [DecidableEq α] (lt : α → α → Bool) (h : List α)
    (item : α) : (heappush lt h item).Perm (item :: h) := by
  unfold heappush siftdown
  rw [List.get?_concat_length]
  simp only
  refine (siftdownGo_perm lt item h.length (h ++ [item]) 0 h.length (by simp)).trans ?_
  have hgetD : (h ++ [item]).getD h.length item = item := by
    rw [List.getD_append_right _ _ _ _ (Nat.le_refl _)]
    simp
  have heq := set_getD_self (h ++ [item]) h.length item (by simp)
  rw [hgetD] at heq
  rw [heq]
  exact List.perm_append_singleton item h

theorem heappop_single {α : Type} (lt : α → α → Bool) (x : α) :
    heappop lt [x] = some (x, []) := rfl

theorem heappop_cons {α : Type} [DecidableEq α] (lt : α → α → Bool) (x : α)
    (xs : List α) :
    ∃ q', heappop lt (x :: xs) = some (x, q') ∧ (x :: xs).Perm (x :: q') ∧
      q'.length = xs.length := by
  match xs with
  | [] => exact ⟨[], rfl, List.Perm.refl _, rfl⟩
  | y :: ys =>
    refine ⟨siftup lt ((x :: y :: ys).getLast (by simp) :: (y :: ys).dropLast) 0,
      rfl, ?_, ?_⟩
    · have hperm := siftup_perm lt
        ((x :: y :: ys).getLast (by simp) :: (y :: ys).dropLast) 0 (by simp)
      refine List.Perm.trans ?_ (List.Perm.cons x hperm.symm)
      conv_lhs => rw [← List.dropLast_append_getLast (l := x :: y :: ys) (by simp)]
      rw [List.dropLast_cons₂, List.cons_append]
      exact List.Perm.cons x (List.perm_append_singleton _ _)
    · rw [siftup_length]
      simp

/-! ### The heap invariant through the sift operations -/

theorem LtLinear.asym {α : Type} {lt : α → α → Bool} (L : LtLinear lt) {a b : α}
    (h : lt a b = true) : lt b a = false := by
  cases hh : lt b a
  · rfl
  · have := L.lt_trans a b a h hh
    rw [L.irrefl] at this
    exact this.symm

theorem LtLinear.lt_le {α : Type} {lt : α → α → Bool} (L : LtLinear lt) {x v s : α}
    (h1 : lt x v = true) (h2 : lt s v = false) : lt s x = false := by
  cases hh : lt s x
  · rfl
  · rw [← h2]
    exact (L.lt_trans s x v hh h1).symm ▸ (L.lt_trans s x v hh h1)

theorem set_isHeap_of_pairs {α : Type} [Inhabited α] {lt : α → α → Bool} (x : α)
    (h : List α) (pos : Nat)
    (hpairs : ∀ c, c < h.length → 0 < c → c ≠ pos →
      lt ((h.set pos x).getD c default) ((h.set pos x).getD ((c - 1) / 2) default) = false)
    (hparent : 0 < pos →
      lt ((h.set pos x).getD pos default)
        ((h.set pos x).getD ((pos - 1) / 2) default) = false) :
    IsHeap lt (h.set pos x) := by
  intro c hc hc0
  rw [List.length_set] at hc
  by_cases hcpos : c = pos
  · subst hcpos
    exact hparent hc0
  · exact hpairs c hc hc0 hcpos

theorem siftdownGo_isHeap {α : Type} [Inhabited α] {lt : α → α → Bool}
    (L : LtLinear lt) (x : α) :
    ∀ (fuel : Nat) (h : List α) (pos : Nat), pos ≤ fuel → pos < h.length →
      (∀ c, c < h.length → 0 < c → c ≠ pos →
        lt ((h.set pos x).getD c default)
          ((h.set pos x).getD ((c - 1) / 2) default) = false) →
      (∀ c, c < h.length → (c = 2 * pos + 1 ∨ c = 2 * pos + 2) → 0 < pos →
        lt ((h.set pos x).getD c default)
          ((h.set pos x).getD ((pos - 1) / 2) default) = false) →
      IsHeap lt (siftdownGo lt x fuel h 0 pos) := by
  intro fuel
  induction fuel with
  | zero =>
    intro h pos hf hp hpairs _hgrand
    have hpos0 : pos = 0 := Nat.le_zero.mp hf
    subst hpos0
    simp only [siftdownGo]
    exact set_isHeap_of_pairs x h 0 hpairs (by omega)
  | succ fuel ih =>
    intro h pos hf hp hpairs hgrand
    simp only [siftdownGo]
    by_cases hsp : 0 < pos
    · rw [if_pos hsp]
      set pp := (pos - 1) / 2 with hppdef
      set par := h.getD pp x with hpardef
      have hpplt : pp < pos := by omega
      have hpplen : pp < h.length := by omega
      have hpar : par = h.getD pp default := getD_irrel h pp x default hpplen
      by_cases hcmp : lt x par = true
      · rw [if_pos hcmp]
        -- value helpers for the swapped array
        have hA'val : ∀ i, i ≠ pp → i ≠ pos →
            ((h.set pos par).set pp x).getD i default = h.getD i default := by
          intro i h1 h2
          rw [getD_set_ne _ pp i x default (fun hh => h1 hh.symm),
            getD_set_ne _ pos i par default (fun hh => h2 hh.symm)]
        have hA'pp : ((h.set pos par).set pp x).getD pp default = x :=
          getD_set_self _ pp x default (by simp; omega)
        have hA'pos : ((h.set pos par).set pp x).getD pos default = par := by
          rw [getD_set_ne _ pp pos x default (by omega)]
          exact getD_set_self _ pos par default hp
        have hAval : ∀ i, i ≠ pos →
            (h.set pos x).getD i default = h.getD i default := by
          intro i h1
          exact getD_set_ne _ pos i x default (fun hh => h1 hh.symm)
        have hApos : (h.set pos x).getD pos default = x :=
          getD_set_self _ pos x default hp
        -- the pp-as-child heap pair, used twice below
        have hHpp : 0 < pp → lt (h.getD pp default) (h.getD ((pp - 1) / 2) default) = false := by
          intro hpp0
          have := hpairs pp hpplen hpp0 (by omega)
          rwa [hAval pp (by omega), hAval ((pp - 1) / 2) (by omega)] at this
        apply ih (h.set pos par) pp (by omega) (by simp; omega)
        · -- pairs avoiding the new hole pp
          intro c hc hc0 hcpp
          rw [List.length_set] at hc
          by_cases hcpos : c = pos
          · rw [hcpos, ← hppdef, hA'pos, hA'pp]
            exact L.asym hcmp
          · by_cases hcparpos : (c - 1) / 2 = pos
            · have hc2 : c = 2 * pos + 1 ∨ c = 2 * pos + 2 := by omega
              rw [hA'val c hcpp hcpos, hcparpos, hA'pos]
              have := hgrand c hc hc2 hsp
              rw [hAval c hcpos, hAval pp (by omega)] at this
              rwa [hpar]
            · by_cases hcparpp : (c - 1) / 2 = pp
              · rw [hA'val c hcpp hcpos, hcparpp, hA'pp]
                have hpc := hpairs c hc hc0 hcpos
                rw [hAval c hcpos, hcparpp, hAval pp (by omega)] at hpc
                exact L.lt_le (hpar ▸ hcmp) hpc
              · rw [hA'val c hcpp hcpos, hA'val ((c - 1) / 2) hcparpp hcparpos]
                have hpc := hpairs c hc hc0 hcpos
                rwa [hAval c hcpos, hAval ((c - 1) / 2) hcparpos] at hpc
        · -- grandparent pairs for the new hole pp
          intro c hc hc2 hpp0
          rw [List.length_set] at hc
          have hgplt : (pp - 1) / 2 < pp := by omega
          have hgpA' : ((h.set pos par).set pp x).getD ((pp - 1) / 2) default =
              h.getD ((pp - 1) / 2) default := hA'val _ (by omega) (by omega)
          by_cases hcpos : c = pos
          · subst hcpos
            rw [hA'pos, hgpA', hpar]
            exact hHpp hpp0
          · rw [hA'val c (by omega) hcpos, hgpA']
            have hpc := hpairs c hc (by omega) hcpos
            rw [hAval c hcpos, show (c - 1) / 2 = pp by omega, hAval pp (by omega)] at hpc
            exact L.le_trans _ _ _ (hHpp hpp0) hpc
      · rw [if_neg hcmp]
        apply set_isHeap_of_pairs x h pos hpairs
        intro _
        rw [getD_set_self _ pos x default hp,
          getD_set_ne _ pos ((pos - 1) / 2) x default (by omega), ← hppdef]
        have hfalse : lt x par = false := by
          cases hv : lt x par
          · rfl
          · exact absurd hv hcmp
        rw [hpardef, getD_irrel h pp x default hpplen] at hfalse
        exact hfalse
    · rw [if_neg hsp]
      exact set_isHeap_of_pairs x h pos hpairs (by omega)

theorem siftupGo_spec {α : Type} [Inhabited α] {lt : α → α → Bool}
    (L : LtLinear lt) (x : α) :
    ∀ (fuel : Nat) (h : List α) (pos : Nat), h.length ≤ fuel + pos → pos < h.length →
      (∀ c, c < h.length → 0 < c → c ≠ pos → (c - 1) / 2 ≠ pos →
        lt (h.getD c default) (h.getD ((c - 1) / 2) default) = false) →
      (∀ c, c < h.length → (c = 2 * pos + 1 ∨ c = 2 * pos + 2) → 0 < pos →
        lt (h.getD c default) (h.getD pos default) = false) →
      (0 < pos → h.getD ((pos - 1) / 2) default = h.getD pos default) →
      ∀ r1 r2, siftupGo lt x fuel h pos = (r1, r2) →
        r1.length = h.length ∧ r2 < h.length ∧ h.length ≤ 2 * r2 + 1 ∧
        (∀ c, c < h.length → 0 < c → c ≠ r2 → (c - 1) / 2 ≠ r2 →
          lt (r1.getD c default) (r1.getD ((c - 1) / 2) default) = false) := by
  intro fuel
  induction fuel with
  | zero =>
    intro h pos hf hp _ _ _ r1 r2 _
    omega
  | succ fuel ih =>
    intro h pos hf hp hJ hJ2 hJ3 r1 r2 hr
    by_cases hc : 2 * pos + 1 < h.length
    · simp only [siftupGo, if_pos hc] at hr
      set cp2 :=
        if 2 * pos + 1 + 1 < h.length then
          if lt (h.getD (2 * pos + 1) x) (h.getD (2 * pos + 1 + 1) x) then 2 * pos + 1
          else 2 * pos + 1 + 1
        else 2 * pos + 1 with hcp2def
      have hchild : cp2 = 2 * pos + 1 ∨ cp2 = 2 * pos + 2 := by
        rw [hcp2def]
        split
        · split
          · exact Or.inl rfl
          · exact Or.inr rfl
        · exact Or.inl rfl
      have hcp2lt : cp2 < h.length := by
        rw [hcp2def]
        split
        · split <;> omega
        · omega
      have hgt : pos < cp2 := by omega
      have hmin : ∀ c, c < h.length → (c = 2 * pos + 1 ∨ c = 2 * pos + 2) → c ≠ cp2 →
          lt (h.getD c default) (h.getD cp2 default) = false := by
        intro c hclen hcor hcne
        by_cases hrp : 2 * pos + 1 + 1 < h.length
        · by_cases hltlr : lt (h.getD (2 * pos + 1) x) (h.getD (2 * pos + 1 + 1) x) = true
          · have hcp2eq : cp2 = 2 * pos + 1 := by rw [hcp2def, if_pos hrp, if_pos hltlr]
            have hceq : c = 2 * pos + 2 := by omega
            have := L.asym hltlr
            rw [getD_irrel h (2 * pos + 1 + 1) x default (by omega),
              getD_irrel h (2 * pos + 1) x default (by omega)] at this
            rw [hceq, hcp2eq]
            exact this
          · have hlf : lt (h.getD (2 * pos + 1) x) (h.getD (2 * pos + 1 + 1) x) = false := by
              cases hv : lt (h.getD (2 * pos + 1) x) (h.getD (2 * pos + 1 + 1) x)
              · rfl
              · exact absurd hv hltlr
            have hcp2eq : cp2 = 2 * pos + 1 + 1 := by rw [hcp2def, if_pos hrp, if_neg hltlr]
            have hceq : c = 2 * pos + 1 := by omega
            rw [getD_irrel h (2 * pos + 1 + 1) x default (by omega),
              getD_irrel h (2 * pos + 1) x default (by omega)] at hlf
            rw [hceq, hcp2eq]
            exact hlf
        · have hcp2eq : cp2 = 2 * pos + 1 := by rw [hcp2def, if_neg hrp]
          omega
      have hv : ∀ i, i ≠ pos →
          (h.set pos (h.getD cp2 x)).getD i default = h.getD i default := by
        intro i hi
        exact getD_set_ne _ pos i _ default (fun hh => hi hh.symm)
      have hvpos : (h.set pos (h.getD cp2 x)).getD pos default = h.getD cp2 default := by
        rw [getD_set_self _ pos _ default hp]
        exact getD_irrel h cp2 x default hcp2lt
      obtain ⟨ha, hb, hcl, hK⟩ := ih (h.set pos (h.getD cp2 x)) cp2
        (by simp; omega) (by simp; omega)
        (by
          intro c hclen hc0 hccp2 hcpar
          rw [List.length_set] at hclen
          by_cases hcpos : c = pos
          · have hpos0 : 0 < pos := by omega
            rw [hcpos, hvpos, hv ((pos - 1) / 2) (by omega)]
            rw [hJ3 hpos0]
            exact hJ2 cp2 hcp2lt hchild hpos0
          · by_cases hcparpos : (c - 1) / 2 = pos
            · have hcor : c = 2 * pos + 1 ∨ c = 2 * pos + 2 := by omega
              rw [hv c hcpos, hcparpos, hvpos]
              exact hmin c hclen hcor hccp2
            · rw [hv c hcpos, hv _ hcparpos]
              exact hJ c hclen hc0 hcpos hcparpos)
        (by
          intro c hclen hcor hcp20
          rw [List.length_set] at hclen
          have hcgt : cp2 < c := by omega
          rw [hv c (by omega), hv cp2 (by omega)]
          have := hJ c hclen (by omega) (by omega) (by omega)
          rwa [show (c - 1) / 2 = cp2 by omega] at this)
        (by
          intro _
          rw [show (cp2 - 1) / 2 = pos by omega, hvpos, hv cp2 (by omega)])
        r1 r2 hr
      rw [List.length_set] at ha hb hcl hK
      exact ⟨ha, hb, hcl, hK⟩
    · simp only [siftupGo, if_neg hc] at hr
      injection hr with h1 h2
      subst h1
      subst h2
      exact ⟨rfl, hp, by omega, hJ⟩

theorem heappush_isHeap {α : Type} [Inhabited α] {lt : α → α → Bool}
    (L : LtLinear lt) (h : List α) (hh : IsHeap lt h) (item : α) :
    IsHeap lt (heappush lt h item) := by
  unfold heappush siftdown
  rw [List.get?_concat_length]
  simp only
  apply siftdownGo_isHeap L item h.length (h ++ [item]) h.length (Nat.le_refl _) (by simp)
  · intro c hc hc0 hcn
    have hclt : c < h.length := by
      simp at hc
      omega
    have hpltc : (c - 1) / 2 < c := by omega
    rw [getD_set_ne _ h.length c item default (by omega),
      getD_set_ne _ h.length ((c - 1) / 2) item default (by omega),
      List.getD_append _ _ _ _ hclt, List.getD_append _ _ _ _ (by omega)]
    exact hh c hclt hc0
  · intro c hc hcor _
    simp at hc
    omega

theorem heappop_isHeap {α : Type} [Inhabited α] {lt : α → α → Bool}
    (L : LtLinear lt) (q : List α) (hq : IsHeap lt q) :
    ∀ pr, heappop lt q = some pr → IsHeap lt pr.2 := by
  match q with
  | [] => intro pr hr; exact absurd hr (by simp [heappop])
  | [x] =>
    intro pr hr
    rw [heappop_single] at hr
    injection hr with hr
    subst hr
    intro c hc
    simp at hc
  | x :: y :: ys =>
    intro pr hr
    have hpop : heappop lt (x :: y :: ys) =
        some (x, siftup lt ((x :: y :: ys).getLast (by simp) :: (y :: ys).dropLast) 0) := rfl
    rw [hpop] at hr
    injection hr with hr
    subst hr
    simp only
    set lastelt := (x :: y :: ys).getLast (by simp) with hlastdef
    set t := (y :: ys).dropLast with htdef
    -- entries 1.. of the working array agree with the original heap
    have htlen : t.length = ys.length := by simp [htdef]
    have hqd : ∀ i, 1 ≤ i → i < t.length + 1 →
        (lastelt :: t).getD i default = (x :: y :: ys).getD i default := by
      intro i h1 h2
      obtain ⟨j, rfl⟩ : ∃ j, i = j + 1 := ⟨i - 1, by omega⟩
      rw [List.getD_cons_succ, List.getD_cons_succ]
      have hjlt : j < t.length := by omega
      rw [List.getD_eq_getElem t default hjlt,
        List.getD_eq_getElem (y :: ys) default (by simp; omega)]
      exact List.getElem_dropLast (y :: ys) j hjlt
    show IsHeap lt (siftup lt (lastelt :: t) 0)
    unfold siftup
    rw [show (lastelt :: t).get? 0 = some lastelt from rfl]
    simp only
    rcases hsg : siftupGo lt lastelt (lastelt :: t).length (lastelt :: t) 0 with ⟨r1, r2⟩
    obtain ⟨hlen, hr2, hleaf, hK⟩ :=
      siftupGo_spec L lastelt (lastelt :: t).length (lastelt :: t) 0 (by omega) (by simp)
        (by
          intro c hc hc0 _ hcpar
          have hpar1 : 1 ≤ (c - 1) / 2 := by omega
          rw [hqd c hc0 (by simpa using hc), hqd _ hpar1 (by simp at hc ⊢; omega)]
          exact hq c (by simp at hc ⊢; omega) hc0)
        (by omega) (by omega) r1 r2 hsg
    have hHlen : (lastelt :: t).length = ys.length + 1 := by simp [htlen]
    rw [hHlen] at hlen hr2 hleaf hK
    apply siftdownGo_isHeap L lastelt r2 (r1.set r2 lastelt) r2 (Nat.le_refl _)
      (by simp [hlen]; omega)
    · intro c hc hc0 hcn
      rw [List.length_set, hlen] at hc
      have hcpar : (c - 1) / 2 ≠ r2 := by
        intro hcontra
        omega
      rw [List.set_set, getD_set_ne _ r2 c lastelt default (fun hh => hcn hh.symm),
        getD_set_ne _ r2 ((c - 1) / 2) lastelt default (fun hh => hcpar hh.symm)]
      exact hK c hc hc0 hcn hcpar
    · intro c hc hcor _
      rw [List.length_set, hlen] at hc
      omega

theorem isHeap_le_root {α : Type} [Inhabited α] {lt : α → α → Bool}
    (L : LtLinear lt) (l : List α) (hl : IsHeap lt l) :
    ∀ j, j < l.length → lt (l.getD j default) (l.getD 0 default) = false := by
  intro j
  induction j using Nat.strong_induction_on with
  | _ j ih =>
    intro hj
    rcases Nat.eq_zero_or_pos j with hj0 | hj0
    · subst hj0
      exact L.irrefl _
    · exact L.le_trans _ _ _ (ih ((j - 1) / 2) (by omega) (by omega)) (hl j hj hj0)

theorem isHeap_root_min_mem {α : Type} [Inhabited α] {lt : α → α → Bool}
    (L : LtLinear lt) (l : List α) (hl : IsHeap lt l) :
    ∀ y ∈ l, lt y (l.getD 0 default) = false := by
  intro y hy
  obtain ⟨⟨n, hn⟩, rfl⟩ := List.mem_iff_get.mp hy
  rw [← List.getD_eq_get l default hn]
  exact isHeap_le_root L l hl n hn

/-! ### Python string comparison is a strict linear order -/

theorem charListLt_irrefl (l : List Char) : charListLt l l = false := by
  induction l with
  | nil => rfl
  | cons a as ih =>
    have ha : charLt a a = false := by simp [charLt]
    simp [charListLt, ha, ih]

theorem charListLt_trans :
    ∀ l1 l2 l3 : List Char, charListLt l1 l2 = true → charListLt l2 l3 = true →
      charListLt l1 l3 = true := by
  intro l1
  induction l1 with
  | nil =>
    intro l2 l3 h12 h23
    cases l2 with
    | nil => simp [charListLt] at h12
    | cons b bs =>
      cases l3 with
      | nil => simp [charListLt] at h23
      | cons c cs => rfl
  | cons a as ih =>
    intro l2 l3 h12 h23
    cases l2 with
    | nil => simp [charListLt] at h12
    | cons b bs =>
      cases l3 with
      | nil => simp [charListLt] at h23
      | cons c cs =>
        simp only [charListLt, charLt, decide_eq_true_eq] at h12 h23 ⊢
        by_cases hab : a.toNat < b.toNat
        · by_cases hbc : b.toNat < c.toNat
          · simp [show a.toNat < c.toNat by omega]
          · by_cases hcb : c.toNat < b.toNat
            · simp [hbc, hcb] at h23
            · simp [show a.toNat < c.toNat by omega]
        · by_cases hba : b.toNat < a.toNat
          · simp [hab, hba] at h12
          · simp [hab, hba] at h12
            by_cases hbc : b.toNat < c.toNat
            · simp [show a.toNat < c.toNat by omega]
            · by_cases hcb : c.toNat < b.toNat
              · simp [hbc, hcb] at h23
              · simp [hbc, hcb] at h23
                simp [show ¬(a.toNat < c.toNat) by omega,
                  show ¬(c.toNat < a.toNat) by omega]
                exact ih bs cs h12 h23

theorem charListLt_le_trans :
    ∀ l1 l2 l3 : List Char, charListLt l2 l1 = false → charListLt l3 l2 = false →
      charListLt l3 l1 = false := by
  intro l1
  induction l1 with
  | nil =>
    intro l2 l3 _ _
    cases l3 with
    | nil => rfl
    | cons c cs => rfl
  | cons a as ih =>
    intro l2 l3 h21 h32
    cases l3 with
    | nil =>
      cases l2 with
      | nil => simp [charListLt] at h21
      | cons b bs => simp [charListLt] at h32
    | cons c cs =>
      cases l2 with
      | nil => simp [charListLt] at h21
      | cons b bs =>
        simp only [charListLt, charLt, decide_eq_true_eq] at h21 h32 ⊢
        by_cases hba : b.toNat < a.toNat
        · simp [hba] at h21
        · by_cases hcb : c.toNat < b.toNat
          · simp [hcb] at h32
          · by_cases hab : a.toNat < b.toNat
            · simp [show ¬(c.toNat < a.toNat) by omega,
                show a.toNat < c.toNat by omega]
            · simp [hba, hab] at h21
              by_cases hbc : b.toNat < c.toNat
              · simp [show ¬(c.toNat < a.toNat) by omega,
                  show a.toNat < c.toNat by omega]
              · simp [hcb, hbc] at h32
                simp [show ¬(c.toNat < a.toNat) by omega,
                  show ¬(a.toNat < c.toNat) by omega]
                exact ih bs cs h21 h32

theorem strLt_linear : LtLinear strLt := by
  refine ⟨fun a => ?_, fun a b c => ?_, fun a b c => ?_⟩
  · exact charListLt_irrefl a.data
  · exact charListLt_trans a.data b.data c.data
  · exact charListLt_le_trans a.data b.data c.data

theorem bookLt_linear : LtLinear bookLt := by
  refine ⟨fun a => ?_, fun a b c => ?_, fun a b c => ?_⟩
  · exact strLt_linear.irrefl a.due_date
  · exact strLt_linear.lt_trans a.due_date b.due_date c.due_date
  · exact strLt_linear.le_trans a.due_date b.due_date c.due_date

/-! ### Behaviour of `next_overdue_book` -/

theorem nobGo_correct :
    ∀ (fuel : Nat) (q : List Book) (now : String), q.length ≤ fuel → IsHeap bookLt q →
      (∀ b q', next_overdue_bookGo fuel q now = (some b, q') →
        b.returned = false ∧ strLt b.due_date now = true ∧ b ∈ q ∧
        ∀ b', b' ∈ q → b'.returned = false → strLt b'.due_date now = true →
          strLt b'.due_date b.due_date = false) ∧
      (∀ q', next_overdue_bookGo fuel q now = (none, q') →
        ∀ b, b ∈ q → b.returned = true ∨ strLt b.due_date now = false) := by
  intro fuel
  induction fuel with
  | zero =>
    intro q now hf _
    have hq0 : q = [] := List.eq_nil_of_length_eq_zero (by omega)
    subst hq0
    constructor
    · intro b q' hr
      simp [next_overdue_bookGo] at hr
    · intro q' _ b hb
      simp at hb
  | succ fuel ih =>
    intro q now hf hq
    match q with
    | [] =>
      constructor
      · intro b q' hr
        simp [next_overdue_bookGo] at hr
      · intro q' _ b hb
        simp at hb
    | book :: rest =>
      obtain ⟨q1, hpop, hperm, hlen⟩ := heappop_cons bookLt book rest
      by_cases hret : book.returned = true
      · have hstep : next_overdue_bookGo (fuel + 1) (book :: rest) now =
            next_overdue_bookGo fuel q1 now := by
          simp [next_overdue_bookGo, hret, hpop]
        have hq1 : IsHeap bookLt q1 :=
          heappop_isHeap bookLt_linear (book :: rest) hq (book, q1) hpop
        have hf1 : q1.length ≤ fuel := by
          simp at hf
          omega
        obtain ⟨ihsome, ihnone⟩ := ih q1 now hf1 hq1
        constructor
        · intro b q' hr
          rw [hstep] at hr
          obtain ⟨hb1, hb2, hb3, hb4⟩ := ihsome b q' hr
          refine ⟨hb1, hb2, hperm.mem_iff.mpr (List.mem_cons_of_mem _ hb3), ?_⟩
          intro b' hb' hbr hbd
          rcases List.mem_cons.mp (hperm.mem_iff.mp hb') with hb'book | hb'm2
          · rw [hb'book, hret] at hbr
            exact absurd hbr (by simp)
          · exact hb4 b' hb'm2 hbr hbd
        · intro q' hr
          rw [hstep] at hr
          intro b hb
          rcases List.mem_cons.mp (hperm.mem_iff.mp hb) with hbbook | hbm2
          · exact Or.inl (hbbook ▸ hret)
          · exact ihnone q' hr b hbm2
      · have hretf : book.returned = false := by
          cases hv : book.returned
          · rfl
          · exact absurd hv hret
        have hroot : ∀ y ∈ book :: rest, bookLt y ((book :: rest).getD 0 default) = false :=
          isHeap_root_min_mem bookLt_linear _ hq
        have hrootv : (book :: rest).getD 0 default = book := rfl
        by_cases hdue : strLt book.due_date now = true
        · have hstep : next_overdue_bookGo (fuel + 1) (book :: rest) now =
              (some book, q1) := by
            simp [next_overdue_bookGo, hretf, hdue, hpop]
          constructor
          · intro b q' hr
            rw [hstep] at hr
            injection hr with h1 h2
            injection h1 with h1
            subst h1
            refine ⟨hretf, hdue, List.mem_cons_self _ _, ?_⟩
            intro b' hb' _ _
            have := hroot b' hb'
            rwa [hrootv] at this
          · intro q' hr
            rw [hstep] at hr
            injection hr with h1 _
            exact absurd h1 (by simp)
        · have hduef : strLt book.due_date now = false := by
            cases hv : strLt book.due_date now
            · rfl
            · exact absurd hv hdue
          have hstep : next_overdue_bookGo (fuel + 1) (book :: rest) now =
              (none, book :: rest) := by
            simp [next_overdue_bookGo, hretf, hdue]
          constructor
          · intro b q' hr
            rw [hstep] at hr
            injection hr with h1 _
            exact absurd h1 (by simp)
          · intro q' _
            intro b hb
            refine Or.inr ?_
            have hmin := hroot b hb
            rw [hrootv] at hmin
            exact strLt_linear.le_trans now book.due_date b.due_date hduef hmin

theorem nobGo_removal :
    ∀ (fuel : Nat) (q : List Book) (now : String), q.length ≤ fuel →
      (∀ q', next_overdue_bookGo fuel q now = (none, q') →
        ∃ removed, (∀ r ∈ removed, r.returned = true) ∧ q.Perm (removed ++ q')) ∧
      (∀ b q', next_overdue_bookGo fuel q now = (some b, q') →
        b.returned = false ∧ strLt b.due_date now = true ∧
        ∃ removed, (∀ r ∈ removed, r.returned = true) ∧ q.Perm (removed ++ b :: q')) := by
  intro fuel
  induction fuel with
  | zero =>
    intro q now hf
    have hq0 : q = [] := List.eq_nil_of_length_eq_zero (by omega)
    subst hq0
    constructor
    · intro q' hr
      simp only [next_overdue_bookGo] at hr
      injection hr with _ h2
      subst h2
      exact ⟨[], by simp, by simp⟩
    · intro b q' hr
      simp [next_overdue_bookGo] at hr
  | succ fuel ih =>
    intro q now hf
    match q with
    | [] =>
      constructor
      · intro q' hr
        simp only [next_overdue_bookGo] at hr
        injection hr with _ h2
        subst h2
        exact ⟨[], by simp, by simp⟩
      · intro b q' hr
        simp [next_overdue_bookGo] at hr
    | book :: rest =>
      obtain ⟨q1, hpop, hperm, hlen⟩ := heappop_cons bookLt book rest
      by_cases hret : book.returned = true
      · have hstep : next_overdue_bookGo (fuel + 1) (book :: rest) now =
            next_overdue_bookGo fuel q1 now := by
          simp [next_overdue_bookGo, hret, hpop]
        have hf1 : q1.length ≤ fuel := by
          simp at hf
          omega
        obtain ⟨ihnone, ihsome⟩ := ih q1 now hf1
        constructor
        · intro q' hr
          rw [hstep] at hr
          obtain ⟨removed, hrall, hrperm⟩ := ihnone q' hr
          refine ⟨book :: removed, ?_, ?_⟩
          · intro r hrm
            rcases List.mem_cons.mp hrm with hrb | hrm2
            · exact hrb ▸ hret
            · exact hrall r hrm2
          · exact hperm.trans (hrperm.cons book)
        · intro b q' hr
          rw [hstep] at hr
          obtain ⟨hb1, hb2, removed, hrall, hrperm⟩ := ihsome b q' hr
          refine ⟨hb1, hb2, book :: removed, ?_, ?_⟩
          · intro r hrm
            rcases List.mem_cons.mp hrm with hrb | hrm2
            · exact hrb ▸ hret
            · exact hrall r hrm2
          · exact hperm.trans (hrperm.cons book)
      · have hretf : book.returned = false := by
          cases hv : book.returned
          · rfl
          · exact absurd hv hret
        by_cases hdue : strLt book.due_date now = true
        · have hstep : next_overdue_bookGo (fuel + 1) (book :: rest) now =
              (some book, q1) := by
            simp [next_overdue_bookGo, hretf, hdue, hpop]
          constructor
          · intro q' hr
            rw [hstep] at hr
            injection hr with h1 _
            exact absurd h1 (by simp)
          · intro b q' hr
            rw [hstep] at hr
            injection hr with h1 h2
            injection h1 with h1
            subst h1
            subst h2
            exact ⟨hretf, hdue, [], by simp, hperm⟩
        · have hstep : next_overdue_bookGo (fuel + 1) (book :: rest) now =
              (none, book :: rest) := by
            simp [next_overdue_bookGo, hretf, hdue]
          constructor
          · intro q' hr
            rw [hstep] at hr
            injection hr with _ h2
            subst h2
            exact ⟨[], by simp, by simp⟩
          · intro b q' hr
            rw [hstep] at hr
            injection hr with h1 _
            exact absurd h1 (by simp)

/-- C1: on any queue satisfying the `heapq` heap invariant (as every queue
built by `add_book` does), `next_overdue_book` returns a not-returned book
due strictly before `now` whose due date is earliest among all such books in
the queue, and raises `NoOverdueBooks` (`none`) exactly when every book in
the queue is returned or not yet due; on the worked example (due dates
2019-06-01, 2019-05-30 returned, 2019-06-06 returned, 2019-06-12, with
`now = 2019-06-11`) it returns `'Pride and Prejudice'` and then raises on
the next call. -/
theorem next_overdue_book_correct :
    (∀ (queue : List Book) (now : String), IsHeap bookLt queue →
      (∀ b q', next_overdue_book queue now = (some b, q') →
        b.returned = false ∧ strLt b.due_date now = true ∧ b ∈ queue ∧
        ∀ b', b' ∈ queue → b'.returned = false → strLt b'.due_date now = true →
          strLt b'.due_date b.due_date = false) ∧
      (∀ q', next_overdue_book queue now = (none, q') →
        ∀ b, b ∈ queue → b.returned = true ∨ strLt b.due_date now = false)) ∧
    IsHeap bookLt overdueQueue ∧
    next_overdue_book overdueQueue "2019-06-11" = (some bookPP, [bookCP, bookWH]) ∧
    bookPP.title = "Pride and Prejudice" ∧
    next_overdue_book [bookCP, bookWH] "2019-06-11" = (none, [bookWH]) :=
  ⟨fun queue now hq => nobGo_correct queue.length queue now (Nat.le_refl _) hq,
   by decide, by decide, by decide, by decide⟩

/-- Witness for C1: instantiating the general theorem on the worked example's
queue (a heap, by computation) and its successor queue. -/
theorem next_overdue_book_correct_witness :
    bookPP.returned = false ∧ strLt bookPP.due_date "2019-06-11" = true ∧
    bookPP ∈ overdueQueue ∧ strLt bookPP.due_date bookPP.due_date = false ∧
    (bookWH.returned = true ∨ strLt bookWH.due_date "2019-06-11" = false) := by
  have h1 := (next_overdue_book_correct.1 overdueQueue "2019-06-11" (by decide)).1
    bookPP [bookCP, bookWH] (by decide)
  have h2 := (next_overdue_book_correct.1 [bookCP, bookWH] "2019-06-11" (by decide)).2
    [bookWH] (by decide) bookWH (by decide)
  exact ⟨h1.1, h1.2.1, h1.2.2.1, h1.2.2.2 bookPP (by decide) (by decide) (by decide), h2⟩

/-- C10: `next_overdue_book` is not atomic on failure: every call removes a
multiset of books from the queue all of which are flagged returned (the
lazily deleted front entries), even when the call ends by raising
`NoOverdueBooks`; and a returned book additionally satisfies
`returned = False` and `due_date < now` and is itself removed. -/
theorem next_overdue_book_removal :
    ∀ (queue : List Book) (now : String),
      (∀ q', next_overdue_book queue now = (none, q') →
        ∃ removed, (∀ r ∈ removed, r.returned = true) ∧ queue.Perm (removed ++ q')) ∧
      (∀ b q', next_overdue_book queue now = (some b, q') →
        b.returned = false ∧ strLt b.due_date now = true ∧
        ∃ removed, (∀ r ∈ removed, r.returned = true) ∧
          queue.Perm (removed ++ b :: q')) :=
  fun queue now => nobGo_removal queue.length queue now (Nat.le_refl _)

/-- Witness for C10: the raising call on `[bookCP, bookWH]` removes only
returned books, and the successful call on the worked queue returns a book
that is not returned and strictly overdue. -/
theorem next_overdue_book_removal_witness :
    bookPP.returned = false ∧ strLt bookPP.due_date "2019-06-11" = true := by
  have h := (next_overdue_book_removal overdueQueue "2019-06-11").2 bookPP
    [bookCP, bookWH] (by decide)
  exact ⟨h.1, h.2.1⟩

end EffectivePython
